import Mathlib

/-!
Shallow embedding of the acoustic core of the sound-classifier repository:
the GCC-PHAT correlator and DOA estimator (`M2_processing/doa.py`), the
spectral peak estimator, frequency tracker and Doppler estimator
(`doppler/doppler.py`), and the band-energy analyzer and hybrid classifier
(`M2_processing/frequency_filter.py`).

NumPy float arithmetic is modelled over ℝ (and ℂ for FFT spectra); Python
integer truncation `int(x)` and floor division `//` are modelled exactly on ℤ.
Python dictionaries keyed by strings become structures; `dict.get` on possibly
absent keys becomes `Option`.
-/

noncomputable section

/-- Python `int(x)`: truncation toward zero of a real value. -/
def intTrunc (x : ℝ) : ℤ := if 0 ≤ x then ⌊x⌋ else -⌊-x⌋

/-- `np.fft.rfft(x, n=N)`'s implicit zero-padding / truncation of the input
to length `N` before transforming. -/
def padTo (x : List ℝ) (N : ℕ) : List ℝ := x.take N ++ List.replicate (N - x.length) 0

/-- Forward DFT root `e^(-2πi/N)` used by `np.fft.rfft`. -/
def omegaF (N : ℕ) : ℂ := Complex.exp (-(2 * Real.pi * Complex.I) / N)

/-- Inverse DFT root `e^(2πi/N)` used by `np.fft.irfft`. -/
def omegaI (N : ℕ) : ℂ := Complex.exp (2 * Real.pi * Complex.I / N)

/-- Number of bins returned by `np.fft.rfft` / `np.fft.rfftfreq` for FFT size `N`. -/
def rfftBins (N : ℕ) : ℕ := N / 2 + 1

/-- `np.fft.rfft(x, n=N)`: the first `N/2+1` bins of the length-`N` DFT of `x`
(`x` zero-padded or truncated to length `N`). -/
def rfft (x : List ℝ) (N : ℕ) : List ℂ :=
  (List.range (rfftBins N)).map fun k =>
    ((List.range N).map fun t => (((padTo x N).getD t 0 : ℝ) : ℂ) * omegaF N ^ (k * t)).sum

/-- `np.fft.rfftfreq(N, d=1/sr)[k] = k·sr/N`. -/
def freqAt (N sr : ℕ) (k : ℕ) : ℝ := k * sr / N

/-- `np.hanning(M)` (symmetric Hann window; numpy returns `[1.]` for `M = 1`
and `[]` for `M = 0`). -/
def hann (M : ℕ) : List ℝ :=
  if M ≤ 1 then List.replicate M 1
  else (List.range M).map fun n => 1 / 2 - 1 / 2 * Real.cos (2 * Real.pi * n / ((M : ℝ) - 1))

/-- `audio[:n_fft] * window` as computed in `dominant_frequency` and
`frequency_band_energy` (the input having been padded to `n_fft` first). -/
def windowed (audio : List ℝ) (N : ℕ) : List ℝ :=
  List.zipWith (· * ·) (padTo audio N) (hann N)

/-- Magnitude spectrum `np.abs(np.fft.rfft(windowed))` of `dominant_frequency`. -/
def magSpec (audio : List ℝ) (N : ℕ) : List ℝ := (rfft (windowed audio N) N).map Complex.abs

/-- `np.argmax`: index of the first occurrence of the maximum (0 on empty input). -/
def idxmax : List ℝ → ℕ
  | [] => 0
  | x :: xs => if xs.all fun y => decide (y ≤ x) then 0 else idxmax xs + 1

/-- Indexing `l[i]` of a NumPy float array as used below (out-of-range reads
do not occur on the modelled domain; they default to 0). -/
def nth (l : List ℝ) (i : ℕ) : ℝ := l.getD i 0

/-- Indices of rfft bins whose frequency lies in `[low, high]` (both ends
inclusive): the search mask of `dominant_frequency`. -/
def maskIdx (N sr : ℕ) (low high : ℝ) : List ℕ :=
  (List.range (rfftBins N)).filter fun k =>
    decide (low ≤ freqAt N sr k) && decide (freqAt N sr k ≤ high)

/-- Peak selection with parabolic interpolation over the masked spectrum
(`doppler.py` lines 104–117). -/
def interpPeak (mspec mfreqs : List ℝ) (defaultRes : ℝ) : ℝ :=
  let j := idxmax mspec
  if 0 < j ∧ j < mspec.length - 1 then
    let a := nth mspec (j - 1)
    let b := nth mspec j
    let c := nth mspec (j + 1)
    let p := if a - 2 * b + c ≠ 0 then 1 / 2 * (a - c) / (a - 2 * b + c) else 0
    let res := if 1 < mfreqs.length then nth mfreqs 1 - nth mfreqs 0 else defaultRes
    nth mfreqs j + p * res
  else nth mfreqs j

/-- `doppler.dominant_frequency`. -/
def dominant_frequency (audio : List ℝ) (sr : ℕ) (n_fft : ℕ) (low_hz high_hz : ℝ) : ℝ :=
  let mask := maskIdx n_fft sr low_hz high_hz
  if mask = [] then 0
  else interpPeak (mask.map fun k => nth (magSpec audio n_fft) k)
    (mask.map (freqAt n_fft sr)) ((sr : ℝ) / n_fft)

/-- Python list slice `l[a:b]` for `0 ≤ a ≤ b`. -/
def pySlice (l : List ℝ) (a b : ℕ) : List ℝ := (l.take b).drop a

/-- `doppler.frequency_track`, returning `(times, frequencies)`. -/
def frequency_track (audio : List ℝ) (sr : ℕ)
    (frame_length_s hop_length_s low_hz high_hz : ℝ) : List ℝ × List ℝ :=
  let fsamp := intTrunc (frame_length_s * sr)
  let hsamp := intTrunc (hop_length_s * sr)
  let n := (max 1 (((audio.length : ℤ) - fsamp).fdiv hsamp + 1)).toNat
  ((List.range n).map fun i =>
      ((i : ℝ) * (hsamp : ℝ) + ((i : ℝ) * (hsamp : ℝ) + (fsamp : ℝ))) / 2 / sr,
   (List.range n).map fun i =>
      dominant_frequency (pySlice audio (i * hsamp.toNat) (i * hsamp.toNat + fsamp.toNat))
        sr fsamp.toNat low_hz high_hz)

structure VelocityResult where
  f1_hz : ℝ
  f2_hz : ℝ
  delta_f_hz : ℝ
  velocity_m_s : ℝ
  direction : String
  source_frequency_hz : ℝ
  speed_of_sound_m_s : ℝ

/-- `doppler.calculate_velocity`. -/
def calculate_velocity (chunk1 chunk2 : List ℝ) (sample_rate : ℕ)
    (source_frequency : Option ℝ) (speed_of_sound : ℝ) : VelocityResult :=
  let f1 := dominant_frequency chunk1 sample_rate 4096 20 20000
  let f2 := dominant_frequency chunk2 sample_rate 4096 20 20000
  let sf := match source_frequency with
    | some s => s
    | none => if 0 < f1 then f1 else 1
  let delta := f2 - f1
  let v := if 0 < f2 then speed_of_sound * delta / f2 else 0
  let dir := if |delta| < 2 then "stationary"
    else if 0 < delta then "approaching" else "receding"
  ⟨f1, f2, delta, v, dir, sf, speed_of_sound⟩

/-- The source-frequency defaulting step of `full_doppler_analysis`
(`doppler.py` lines 276–279). -/
def fullDopplerSourceFreq (source_frequency : Option ℝ) (freqs : List ℝ) : ℝ :=
  match source_frequency with
  | some s => s
  | none => if 0 < freqs.length ∧ 0 < freqs.getD 0 0 then freqs.getD 0 0 else 1000

structure DopplerSummary where
  mean_velocity_m_s : ℝ
  max_velocity_m_s : ℝ
  dominant_direction : String
  n_frames : ℕ
  duration_s : ℝ
  mean_travel_time_s : Option ℝ

structure DopplerTrackResult where
  times : List ℝ
  frequencies : List ℝ
  velocities : List ℝ
  directions : List String
  travel_times : List (Option ℝ)
  summary : DopplerSummary

/-- Python `max(set(ds), key=ds.count)`. Python's set iteration order is
unspecified; ties are resolved here by first occurrence. -/
def majorityDirection (ds : List String) : String :=
  ds.dedup.foldl (fun best s => if ds.count best < ds.count s then s else best)
    (ds.dedup.headD "stationary")

/-- `doppler.full_doppler_analysis`.  `np.max` over the nonempty list of
absolute velocities is modelled by a `foldl max 0` (all entries are ≥ 0). -/
def full_doppler_analysis (audio : List ℝ) (sr : ℕ) (source_frequency : Option ℝ)
    (speed_of_sound frame_length_s hop_length_s : ℝ) (distance_m : Option ℝ) :
    DopplerTrackResult :=
  let tf := frequency_track audio sr frame_length_s hop_length_s 20 20000
  let freqs := tf.2
  let sf := fullDopplerSourceFreq source_frequency freqs
  let velocities := freqs.map fun f => if 0 < f then speed_of_sound * (f - sf) / f else 0
  let directions := freqs.map fun f =>
    if |f - sf| < 2 then "stationary" else if 0 < f - sf then "approaching" else "receding"
  let travel_times := velocities.map fun v =>
    match distance_m with
    | some d => if 1 / 10 < |v| then some (d / |v|) else none
    | none => none
  let valid := travel_times.filterMap id
  ⟨tf.1, freqs, velocities, directions, travel_times,
    ⟨velocities.sum / velocities.length,
     (velocities.map fun v => |v|).foldl max 0,
     majorityDirection directions,
     tf.1.length,
     (audio.length : ℝ) / sr,
     match distance_m with
     | some _ => if valid ≠ [] then some (valid.sum / valid.length) else none
     | none => none⟩⟩

structure FrequencyBand where
  name : String
  low_hz : ℝ
  high_hz : ℝ
  candidate_sources : List String

/-- `DEFAULT_BANDS` of `frequency_filter.py`. -/
def DEFAULT_BANDS : List FrequencyBand :=
  [⟨"sub_bass", 10, 80, ["helicopter", "marine_vessel", "earthquake"]⟩,
   ⟨"bass", 80, 300, ["drone", "car_truck", "helicopter", "marine_vessel"]⟩,
   ⟨"low_mid", 300, 1000, ["drone", "car_truck", "fixed_wing", "human_voice"]⟩,
   ⟨"mid", 1000, 3500, ["siren", "human_voice", "fixed_wing", "bird"]⟩,
   ⟨"upper_mid", 3500, 8000, ["gunshot", "siren", "bird", "insect"]⟩,
   ⟨"high", 8000, 16000, ["bird", "insect", "marine_mammal"]⟩]

structure BandResult where
  name : String
  low_hz : ℝ
  high_hz : ℝ
  energy : ℝ
  energy_db : ℝ
  candidate_sources : List String

/-- Power spectrum `np.abs(np.fft.rfft(windowed))**2` of `frequency_band_energy`. -/
def powerSpec (audio : List ℝ) (N : ℕ) : List ℝ :=
  (rfft (windowed audio N) N).map fun z => Complex.abs z ^ 2

/-- Band mask of `frequency_band_energy`: low end inclusive, high end exclusive. -/
def bandMaskIdx (N sr : ℕ) (low high : ℝ) : List ℕ :=
  (List.range (rfftBins N)).filter fun k =>
    decide (low ≤ freqAt N sr k) && decide (freqAt N sr k < high)

/-- Raw (unnormalised) energy of one band: the masked power-spectrum sum. -/
def bandRaw (audio : List ℝ) (sr N : ℕ) (b : FrequencyBand) : ℝ :=
  ((bandMaskIdx N sr b.low_hz b.high_hz).map fun k => (powerSpec audio N).getD k 0).sum

/-- Total energy accumulated across all bands. -/
def totalBandEnergy (audio : List ℝ) (sr N : ℕ) (bs : List FrequencyBand) : ℝ :=
  (bs.map (bandRaw audio sr N)).sum

/-- `frequency_filter.frequency_band_energy`. -/
def frequency_band_energy (audio : List ℝ) (sr : ℕ)
    (bands : Option (List FrequencyBand)) (n_fft : ℕ) : List BandResult :=
  let bs := bands.getD DEFAULT_BANDS
  let total := totalBandEnergy audio sr n_fft bs
  bs.map fun b =>
    ⟨b.name, b.low_hz, b.high_hz,
     if 0 < total then bandRaw audio sr n_fft b / total else 0,
     10 * Real.logb 10 (bandRaw audio sr n_fft b + 1e-10),
     b.candidate_sources⟩

structure Candidate where
  cls : String
  confidence : ℝ

/-- The Doppler-context argument of `hybrid_classify`: a dictionary produced
either by `calculate_velocity` (key "direction" present) or by the summary of
`full_doppler_analysis` (key "dominant_direction" present). -/
structure DopplerDict where
  direction : Option String
  dominant_direction : Option String
  velocity_m_s : Option ℝ
  mean_velocity_m_s : Option ℝ

structure HybridResult where
  first_guess : String
  candidates : List Candidate
  band_energies : List BandResult
  is_moving : Option Bool
  velocity_m_s : Option ℝ
  direction : Option String
  method : String

/-- Ordered-dict accumulation `source_scores[src] = source_scores.get(src, 0) + e`
(Python dicts preserve insertion order). -/
def addScore : List (String × ℝ) → String → ℝ → List (String × ℝ)
  | [], s, e => [(s, e)]
  | (k, v) :: t, s, e => if k = s then (k, v + e) :: t else (k, v) :: addScore t s e

/-- The score-accumulation loop of `hybrid_classify`. -/
def accumulateScores (bes : List BandResult) : List (String × ℝ) :=
  bes.foldl (fun acc be => be.candidate_sources.foldl (fun a s => addScore a s be.energy) acc) []

/-- Python `max()` over a nonempty list (with an explicit value for `[]`,
matching the guarded call sites). -/
def pyMax (l : List ℝ) (dflt : ℝ) : ℝ :=
  match l with
  | [] => dflt
  | x :: xs => xs.foldl max x

/-- `round(x, 3)`, idealised as round-to-nearest thousandth (Python rounds
half-to-even on binary floats; no property here depends on tie direction). -/
def round3 (x : ℝ) : ℝ := ((round (1000 * x) : ℤ) : ℝ) / 1000

/-- Python `sorted(·, key=score, reverse=True)`: stable descending sort on the
second component. -/
def sortPairsDesc (l : List (String × ℝ)) : List (String × ℝ) :=
  @List.insertionSort _ (fun a b => b.2 ≤ a.2)
    (fun a b => inferInstanceAs (Decidable (b.2 ≤ a.2))) l

/-- Python `candidates.sort(key=confidence, reverse=True)`: stable descending
sort on the confidence. -/
def sortCandsDesc (l : List Candidate) : List Candidate :=
  @List.insertionSort _ (fun a b => b.confidence ≤ a.confidence)
    (fun a b => inferInstanceAs (Decidable (b.confidence ≤ a.confidence))) l

/-- The fixed moving-source label set of `hybrid_classify`. -/
def movingSources : List String :=
  ["drone", "car_truck", "fixed_wing", "helicopter", "marine_vessel"]

/-- `frequency_filter.hybrid_classify`.  `top[0][0]` is modelled with `headD`;
Python raises IndexError there when `top_k = 0` empties the list, which is
outside the modelled domain (theorems assume `0 < top_k`). -/
def hybrid_classify (audio : List ℝ) (sr : ℕ) (bands : Option (List FrequencyBand))
    (doppler_result : Option DopplerDict) (top_k : ℕ) : HybridResult :=
  let bes := frequency_band_energy audio sr bands 4096
  let scores := accumulateScores bes
  let maxScore := pyMax (scores.map Prod.snd) 1
  let normScores := if 0 < maxScore then scores.map (fun p => (p.1, p.2 / maxScore)) else scores
  let ranked := sortPairsDesc normScores
  let top := if ranked = [] then [("unknown", (0 : ℝ))] else ranked.take top_k
  let cands := top.map fun p => Candidate.mk p.1 (round3 p.2)
  let fg := (cands.headD ⟨"unknown", 0⟩).cls
  match doppler_result with
  | none => ⟨fg, cands, bes, none, none, none, "frequency_band"⟩
  | some d =>
    let vel := match d.velocity_m_s with
      | some v => some v
      | none => d.mean_velocity_m_s
    let dir := match d.direction with
      | some s => some s
      | none => d.dominant_direction
    if d.direction = some "stationary" then
      ⟨fg, cands, bes, some false, vel, dir, "frequency_band+doppler"⟩
    else
      let boosted := cands.map fun c =>
        if c.cls ∈ movingSources then ⟨c.cls, min 1 (c.confidence * 1.3)⟩
        else ⟨c.cls, c.confidence * 0.7⟩
      let resorted := sortCandsDesc boosted
      ⟨(resorted.headD ⟨"unknown", 0⟩).cls, resorted, bes, some true, vel, dir,
        "frequency_band+doppler"⟩

/-- Next power of two ≥ n: `1 << int(np.ceil(np.log2(n)))` (`doa.py` line 42). -/
def nextPow2 (n : ℕ) : ℕ := 2 ^ Nat.clog 2 n

/-- Hermitian extension of an rfft half-spectrum back to all `N` bins. -/
def hermExtend (R : List ℂ) (N : ℕ) (k : ℕ) : ℂ :=
  if k ≤ N / 2 then R.getD k 0 else (starRingEnd ℂ) (R.getD (N - k) 0)

/-- `np.fft.irfft(R, n=N)`: real inverse DFT of the Hermitian extension. -/
def irfft (R : List ℂ) (N : ℕ) : List ℝ :=
  (List.range N).map fun m =>
    ((((List.range N).map fun k => hermExtend R N k * omegaI N ^ (k * m)).sum) / (N : ℂ)).re

/-- `np.fft.fftshift` for the vectors produced here (length a power of two or 1):
a roll by `N/2`, i.e. `y[j] = x[(j + N/2) % N]`. -/
def fftshift (x : List ℝ) : List ℝ :=
  (List.range x.length).map fun j => x.getD ((j + x.length / 2) % x.length) 0

structure GccResult where
  tau : ℝ
  cc : List ℝ

/-- The peak-picking tail of `gcc_phat` (`doa.py` lines 55–72): clamp the
search window to ±maxShift samples around the centre lag, take the argmax of
|cc| there, and convert the lag to seconds. -/
def gccPick (cc : List ℝ) (fs : ℕ) (maxShift : ℤ) : ℝ :=
  let centre := cc.length / 2
  let sStart := (max ((centre : ℤ) - maxShift) 0).toNat
  let sEnd := (min ((centre : ℤ) + maxShift + 1) (cc.length : ℤ)).toNat
  let region := (cc.drop sStart).take (sEnd - sStart)
  let peak := idxmax (region.map fun v => |v|)
  (((peak : ℤ) - ((centre : ℤ) - (sStart : ℤ)) : ℤ) : ℝ) / fs

/-- The PHAT-weighted, fftshifted cross-correlation of `gcc_phat`
(`doa.py` lines 41–57). -/
def gccCC (sig1 sig2 : List ℝ) : List ℝ :=
  let n := sig1.length + sig2.length - 1
  let N := nextPow2 n
  let S1 := rfft sig1 N
  let S2 := rfft sig2 N
  let R := List.zipWith (fun a b => a * (starRingEnd ℂ) b) S1 S2
  let Rphat := R.map fun z =>
    z / (if Complex.abs z < 1e-10 then ((1e-10 : ℝ) : ℂ) else ((Complex.abs z : ℝ) : ℂ))
  fftshift (irfft Rphat N)

/-- `doa.gcc_phat`. -/
def gcc_phat (sig1 sig2 : List ℝ) (fs : ℕ) (max_tau : Option ℝ) : GccResult :=
  let cc := gccCC sig1 sig2
  let maxShift : ℤ := match max_tau with
    | some t => intTrunc (t * fs)
    | none => (cc.length / 2 : ℕ)
  ⟨gccPick cc fs maxShift, cc⟩

/-- `np.clip(x, lo, hi)`. -/
def clip (x lo hi : ℝ) : ℝ := min (max x lo) hi

/-- The delay→angle mapping of `estimate_doa` (`doa.py` lines 97–102):
`degrees(arcsin(clip(c·τ/d, −1, 1)))`. -/
def doaAngleOfDelay (tau mic_distance speed_of_sound : ℝ) : ℝ :=
  Real.arcsin (clip (speed_of_sound * tau / mic_distance) (-1) 1) * (180 / Real.pi)

/-- `doa.estimate_doa`. -/
def estimate_doa (sig1 sig2 : List ℝ) (fs : ℕ) (mic_distance speed_of_sound : ℝ) : ℝ :=
  doaAngleOfDelay (gcc_phat sig1 sig2 fs (some (mic_distance / speed_of_sound))).tau
    mic_distance speed_of_sound

end

/-! ### Basic lemmas about the argmax and the clip -/

theorem idxmax_lt_length (l : List ℝ) (h : l ≠ []) : idxmax l < l.length := by
  induction l with
  | nil => simp at h
  | cons x xs ih =>
    by_cases hx : xs = []
    · subst hx; simp [idxmax]
    · simp only [idxmax]
      split
      · simp
      · simpa using Nat.succ_lt_succ (ih hx)

theorem le_getD_idxmax (l : List ℝ) : ∀ y ∈ l, y ≤ l.getD (idxmax l) 0 := by
  induction l with
  | nil => simp
  | cons x xs ih =>
    intro y hy
    simp only [idxmax]
    split
    · next hall =>
      simp only [List.all_eq_true, decide_eq_true_eq] at hall
      rcases List.mem_cons.mp hy with h | h
      · subst h; simp
      · simpa using hall y h
    · next hall =>
      simp only [List.all_eq_true, decide_eq_true_eq] at hall
      push_neg at hall
      rcases hall with ⟨z, hz, hxz⟩
      have hz' : z ≤ xs.getD (idxmax xs) 0 := ih z hz
      have hstep : (x :: xs).getD (idxmax xs + 1) 0 = xs.getD (idxmax xs) 0 := rfl
      rcases List.mem_cons.mp hy with h | h
      · subst h; rw [hstep]; exact le_of_lt (lt_of_lt_of_le hxz hz')
      · rw [hstep]; exact ih y h

theorem clip_neg_one_one (x : ℝ) : clip (-x) (-1) 1 = -clip x (-1) 1 := by
  simp only [clip, min_def, max_def]
  split_ifs <;> linarith

/-! ### C8: the DOA angle mapping is odd in the delay -/

/-- C8: the delay-to-angle mapping `degrees(asin(clip(c·τ/d, −1, 1)))` used by
`estimate_doa` is an odd function of the delay: for positive mic distance and
speed of sound, negating the delay negates the estimated angle. -/
theorem doaAngle_odd_in_delay (tau mic_distance speed_of_sound : ℝ)
    (hd : 0 < mic_distance) (hc : 0 < speed_of_sound) :
    doaAngleOfDelay (-tau) mic_distance speed_of_sound
      = -doaAngleOfDelay tau mic_distance speed_of_sound := by
  unfold doaAngleOfDelay
  have harg : speed_of_sound * -tau / mic_distance
      = -(speed_of_sound * tau / mic_distance) := by ring
  rw [harg, clip_neg_one_one, Real.arcsin_neg]
  ring

theorem doaAngle_odd_in_delay_witness :
    (0 : ℝ) < 0.05 ∧ (0 : ℝ) < 343 ∧
      doaAngleOfDelay (-(1 / 16000)) 0.05 343 = -doaAngleOfDelay (1 / 16000) 0.05 343 :=
  ⟨by norm_num, by norm_num,
    doaAngle_odd_in_delay (1 / 16000) 0.05 343 (by norm_num) (by norm_num)⟩

/-! ### C7: direction labelling of calculate_velocity -/

theorem directionLabel_cases (delta : ℝ) :
    ((if |delta| < 2 then "stationary" else if 0 < delta then "approaching" else "receding")
        = "stationary" ↔ |delta| < 2) ∧
    ((if |delta| < 2 then "stationary" else if 0 < delta then "approaching" else "receding")
        = "approaching" ↔ 2 ≤ |delta| ∧ 0 < delta) ∧
    ((if |delta| < 2 then "stationary" else if 0 < delta then "approaching" else "receding")
        = "receding" ↔ 2 ≤ |delta| ∧ delta ≤ 0) := by
  by_cases h1 : |delta| < 2
  · refine ⟨by simp [h1], ?_, ?_⟩
    · simp only [if_pos h1]
      simp only [show ("stationary" : String) ≠ "approaching" from by decide, false_iff]
      rintro ⟨h, -⟩; linarith
    · simp only [if_pos h1]
      simp only [show ("stationary" : String) ≠ "receding" from by decide, false_iff]
      rintro ⟨h, -⟩; linarith
  · push_neg at h1
    by_cases h2 : 0 < delta
    · refine ⟨?_, ?_, ?_⟩
      · simp only [if_neg (not_lt.mpr h1), if_pos h2]
        simp [show ("approaching" : String) ≠ "stationary" from by decide]
        linarith
      · simp only [if_neg (not_lt.mpr h1), if_pos h2, true_iff]
        exact ⟨h1, h2⟩
      · simp only [if_neg (not_lt.mpr h1), if_pos h2]
        simp only [show ("approaching" : String) ≠ "receding" from by decide, false_iff]
        rintro ⟨-, h⟩; linarith
    · refine ⟨?_, ?_, ?_⟩
      · simp only [if_neg (not_lt.mpr h1), if_neg h2]
        simp [show ("receding" : String) ≠ "stationary" from by decide]
        linarith
      · simp only [if_neg (not_lt.mpr h1), if_neg h2]
        simp only [show ("receding" : String) ≠ "approaching" from by decide, false_iff]
        rintro ⟨-, h⟩; exact h2 h
      · simp only [if_neg (not_lt.mpr h1), if_neg h2, true_iff]
        exact ⟨h1, not_lt.mp h2⟩

set_option maxRecDepth 40000 in
/-- C7: `calculate_velocity` returns direction "stationary" exactly when
|f2 − f1| < 2 Hz regardless of the sign of the delta, "approaching" exactly
when the delta reaches the 2 Hz tolerance and is positive, and "receding"
otherwise (the delta reaches the tolerance and is nonpositive); the reported
delta is f2 − f1. -/
theorem calculate_velocity_direction (chunk1 chunk2 : List ℝ) (sample_rate : ℕ)
    (source_frequency : Option ℝ) (speed_of_sound : ℝ) (hsr : 0 < sample_rate) :
    (calculate_velocity chunk1 chunk2 sample_rate source_frequency speed_of_sound).delta_f_hz
      = (calculate_velocity chunk1 chunk2 sample_rate source_frequency speed_of_sound).f2_hz
        - (calculate_velocity chunk1 chunk2 sample_rate source_frequency speed_of_sound).f1_hz ∧
    ((calculate_velocity chunk1 chunk2 sample_rate source_frequency speed_of_sound).direction
        = "stationary"
      ↔ |(calculate_velocity chunk1 chunk2 sample_rate source_frequency
            speed_of_sound).delta_f_hz| < 2) ∧
    ((calculate_velocity chunk1 chunk2 sample_rate source_frequency speed_of_sound).direction
        = "approaching"
      ↔ 2 ≤ |(calculate_velocity chunk1 chunk2 sample_rate source_frequency
            speed_of_sound).delta_f_hz|
          ∧ 0 < (calculate_velocity chunk1 chunk2 sample_rate source_frequency
            speed_of_sound).delta_f_hz) ∧
    ((calculate_velocity chunk1 chunk2 sample_rate source_frequency speed_of_sound).direction
        = "receding"
      ↔ 2 ≤ |(calculate_velocity chunk1 chunk2 sample_rate source_frequency
            speed_of_sound).delta_f_hz|
          ∧ (calculate_velocity chunk1 chunk2 sample_rate source_frequency
            speed_of_sound).delta_f_hz ≤ 0) := by
  obtain ⟨h1, h2, h3⟩ := directionLabel_cases
    ((calculate_velocity chunk1 chunk2 sample_rate source_frequency speed_of_sound).delta_f_hz)
  exact ⟨rfl, h1, h2, h3⟩

theorem calculate_velocity_direction_witness :
    0 < 16000 ∧
      ((calculate_velocity [0] [0] 16000 none 343).direction = "stationary"
        ↔ |(calculate_velocity [0] [0] 16000 none 343).delta_f_hz| < 2) :=
  ⟨by norm_num, (calculate_velocity_direction [0] [0] 16000 none 343 (by norm_num)).2.1⟩

/-! ### C6: frame count of frequency_track -/

/-- C6: for a buffer of length N, the frequency track returned by
`frequency_track` has exactly max(1, ⌊(N − frame_samples)/hop_samples⌋ + 1)
entries, where the frame and hop lengths in seconds are converted to sample
counts by Python `int(x·sr)` truncation. -/
theorem frequency_track_length (audio : List ℝ) (sr : ℕ)
    (frame_length_s hop_length_s low_hz high_hz : ℝ)
    (hhop : 1 ≤ intTrunc (hop_length_s * sr)) :
    ((frequency_track audio sr frame_length_s hop_length_s low_hz high_hz).2).length
      = (max 1 ((((audio.length : ℤ) - intTrunc (frame_length_s * sr)).fdiv
          (intTrunc (hop_length_s * sr))) + 1)).toNat := by
  simp [frequency_track]

theorem frequency_track_length_witness :
    1 ≤ intTrunc ((1 : ℝ) * ((1 : ℕ) : ℝ)) ∧
      ((frequency_track [1, 2, 3] 1 1 1 20 20000).2).length
        = (max 1 ((((([1, 2, 3] : List ℝ).length : ℤ) - intTrunc ((1 : ℝ) * ((1 : ℕ) : ℝ))).fdiv
            (intTrunc ((1 : ℝ) * ((1 : ℕ) : ℝ)))) + 1)).toNat := by
  have h : (1 : ℤ) ≤ intTrunc ((1 : ℝ) * ((1 : ℕ) : ℝ)) := by norm_num [intTrunc]
  exact ⟨h, frequency_track_length [1, 2, 3] 1 1 1 20 20000 h⟩

/-! ### The search mask of dominant_frequency: band membership and contiguity -/

theorem freqAt_mono (N sr : ℕ) {i j : ℕ} (h : i ≤ j) : freqAt N sr i ≤ freqAt N sr j := by
  unfold freqAt
  rcases Nat.eq_zero_or_pos N with hN | hN
  · simp [hN]
  · have hc : (0 : ℝ) < N := by exact_mod_cast hN
    rw [div_le_div_iff_of_pos_right hc]
    have hij : (i : ℝ) ≤ j := by exact_mod_cast h
    have hs : (0 : ℝ) ≤ sr := by positivity
    nlinarith

theorem freqAt_succ (N sr k : ℕ) : freqAt N sr (k + 1) = freqAt N sr k + (sr : ℝ) / N := by
  unfold freqAt
  push_cast
  ring

theorem maskIdx_pairwise (N sr : ℕ) (low high : ℝ) :
    (maskIdx N sr low high).Pairwise (· < ·) :=
  (List.pairwise_lt_range _).filter _

theorem mem_maskIdx (N sr : ℕ) (low high : ℝ) {k : ℕ} (hk : k ∈ maskIdx N sr low high) :
    k < rfftBins N ∧ low ≤ freqAt N sr k ∧ freqAt N sr k ≤ high := by
  have h1 := List.mem_filter.mp hk
  have h2 := h1.2
  simp only [Bool.and_eq_true, decide_eq_true_eq] at h2
  exact ⟨List.mem_range.mp h1.1, h2.1, h2.2⟩

theorem maskIdx_mem_of_between (N sr : ℕ) (low high : ℝ) {a b c : ℕ}
    (ha : a ∈ maskIdx N sr low high) (hb : b ∈ maskIdx N sr low high)
    (hac : a ≤ c) (hcb : c ≤ b) : c ∈ maskIdx N sr low high := by
  obtain ⟨haR, halo, hahi⟩ := mem_maskIdx N sr low high ha
  obtain ⟨hbR, hblo, hbhi⟩ := mem_maskIdx N sr low high hb
  refine List.mem_filter.mpr ⟨List.mem_range.mpr (lt_of_le_of_lt hcb hbR), ?_⟩
  simp only [Bool.and_eq_true, decide_eq_true_eq]
  exact ⟨le_trans halo (freqAt_mono N sr hac), le_trans (freqAt_mono N sr hcb) hbhi⟩

theorem maskIdx_consecutive (N sr : ℕ) (low high : ℝ) :
    ∀ i, i + 1 < (maskIdx N sr low high).length →
      (maskIdx N sr low high).getD (i + 1) 0 = (maskIdx N sr low high).getD i 0 + 1 := by
  intro i hi1
  have hi : i < (maskIdx N sr low high).length := Nat.lt_of_succ_lt hi1
  have hpw := List.pairwise_iff_get.mp (maskIdx_pairwise N sr low high)
  have hlt : (maskIdx N sr low high).get ⟨i, hi⟩ < (maskIdx N sr low high).get ⟨i + 1, hi1⟩ :=
    hpw ⟨i, hi⟩ ⟨i + 1, hi1⟩ (by simp [Fin.lt_def])
  rw [List.getD_eq_getElem _ _ hi1, List.getD_eq_getElem _ _ hi]
  by_contra hne
  have hx1 : (maskIdx N sr low high).get ⟨i, hi⟩ + 1 < (maskIdx N sr low high).get ⟨i + 1, hi1⟩ := by
    simp only [List.get_eq_getElem] at hlt ⊢
    omega
  have hmem : (maskIdx N sr low high).get ⟨i, hi⟩ + 1 ∈ maskIdx N sr low high :=
    maskIdx_mem_of_between N sr low high (List.get_mem _ _ _) (List.get_mem _ _ _)
      (Nat.le_succ _) (le_of_lt hx1)
  obtain ⟨⟨j, hj⟩, hjeq⟩ := List.mem_iff_get.mp hmem
  rcases lt_or_ge j (i + 1) with hji | hji
  · have hle : (maskIdx N sr low high).get ⟨j, hj⟩ ≤ (maskIdx N sr low high).get ⟨i, hi⟩ := by
      rcases lt_or_eq_of_le (Nat.lt_succ_iff.mp hji) with h | h
      · exact le_of_lt (hpw ⟨j, hj⟩ ⟨i, hi⟩ (by simp [Fin.lt_def, h]))
      · subst h; rfl
    omega
  · have hle : (maskIdx N sr low high).get ⟨i + 1, hi1⟩ ≤ (maskIdx N sr low high).get ⟨j, hj⟩ := by
      rcases lt_or_eq_of_le hji with h | h
      · exact le_of_lt (hpw ⟨i + 1, hi1⟩ ⟨j, hj⟩ (by simp [Fin.lt_def, h]))
      · subst h; rfl
    omega

/-! ### Bounds on the interpolated peak -/

theorem le_nth_idxmax (l : List ℝ) : ∀ y ∈ l, y ≤ nth l (idxmax l) := by
  simpa only [nth] using le_getD_idxmax l

theorem interpPeak_bounds (mspec : List ℝ) (N sr : ℕ) (mask : List ℕ) (low high dres : ℝ)
    (hlen : mspec.length = mask.length) (hne : mask ≠ [])
    (hconsec : ∀ i, i + 1 < mask.length →
      mask.getD (i + 1) 0 = mask.getD i 0 + 1)
    (hband : ∀ k ∈ mask, low ≤ freqAt N sr k ∧ freqAt N sr k ≤ high) :
    low ≤ interpPeak mspec (mask.map (freqAt N sr)) dres ∧
      interpPeak mspec (mask.map (freqAt N sr)) dres ≤ high := by
  have hms : mspec ≠ [] := by
    intro h
    apply hne
    have : mask.length = 0 := by rw [← hlen, h]; rfl
    exact List.length_eq_zero.mp this
  have hj : idxmax mspec < mspec.length := idxmax_lt_length mspec hms
  have hjm : idxmax mspec < mask.length := by omega
  have hmapD : ∀ i, i < mask.length →
      nth (mask.map (freqAt N sr)) i = freqAt N sr (mask.getD i 0) := by
    intro i hi
    have hi2 : i < (mask.map (freqAt N sr)).length := by simpa using hi
    rw [nth, List.getD_eq_getElem _ _ hi2, List.getD_eq_getElem _ _ hi, List.getElem_map]
  have hmemD : ∀ i, i < mask.length → mask.getD i 0 ∈ mask := by
    intro i hi
    rw [List.getD_eq_getElem _ _ hi]
    exact List.getElem_mem hi
  have hmemS : ∀ i, i < mspec.length → nth mspec i ∈ mspec := by
    intro i hi
    rw [nth, List.getD_eq_getElem _ _ hi]
    exact List.getElem_mem hi
  by_cases hint : 0 < idxmax mspec ∧ idxmax mspec < mspec.length - 1
  · obtain ⟨hj0, hjtop⟩ := hint
    have hj1 : idxmax mspec + 1 < mspec.length := by omega
    have hj1m : idxmax mspec + 1 < mask.length := by omega
    have hjm1 : idxmax mspec - 1 < mspec.length := by omega
    have hlen3 : 1 < mask.length := by omega
    have ha : nth mspec (idxmax mspec - 1) ≤ nth mspec (idxmax mspec) :=
      le_nth_idxmax mspec _ (hmemS _ hjm1)
    have hc : nth mspec (idxmax mspec + 1) ≤ nth mspec (idxmax mspec) :=
      le_nth_idxmax mspec _ (hmemS _ hj1)
    have hdelta : (0 : ℝ) ≤ (sr : ℝ) / N := by positivity
    have hres : (if 1 < (mask.map (freqAt N sr)).length then
        nth (mask.map (freqAt N sr)) 1 - nth (mask.map (freqAt N sr)) 0 else dres)
          = (sr : ℝ) / N := by
      rw [if_pos (by simpa using hlen3), hmapD 1 hlen3, hmapD 0 (by omega), hconsec 0 hlen3,
        freqAt_succ]
      ring
    have hfj1 : freqAt N sr (mask.getD (idxmax mspec + 1) 0)
        = freqAt N sr (mask.getD (idxmax mspec) 0) + (sr : ℝ) / N := by
      rw [hconsec _ hj1m, freqAt_succ]
    have hfjm1 : freqAt N sr (mask.getD (idxmax mspec) 0)
        = freqAt N sr (mask.getD (idxmax mspec - 1) 0) + (sr : ℝ) / N := by
      have h := hconsec (idxmax mspec - 1) (by omega)
      have e : idxmax mspec - 1 + 1 = idxmax mspec := by omega
      rw [e] at h
      rw [h, freqAt_succ]
    have hbj := hband _ (hmemD _ hjm)
    have hbjm1 := hband _ (hmemD (idxmax mspec - 1) (by omega))
    have hbj1 := hband _ (hmemD _ hj1m)
    have hp : -(1 / 2 : ℝ) ≤ (if nth mspec (idxmax mspec - 1) - 2 * nth mspec (idxmax mspec)
          + nth mspec (idxmax mspec + 1) ≠ 0 then
        1 / 2 * (nth mspec (idxmax mspec - 1) - nth mspec (idxmax mspec + 1))
          / (nth mspec (idxmax mspec - 1) - 2 * nth mspec (idxmax mspec)
            + nth mspec (idxmax mspec + 1)) else 0) ∧
        (if nth mspec (idxmax mspec - 1) - 2 * nth mspec (idxmax mspec)
          + nth mspec (idxmax mspec + 1) ≠ 0 then
        1 / 2 * (nth mspec (idxmax mspec - 1) - nth mspec (idxmax mspec + 1))
          / (nth mspec (idxmax mspec - 1) - 2 * nth mspec (idxmax mspec)
            + nth mspec (idxmax mspec + 1)) else 0) ≤ 1 / 2 := by
      split_ifs with hD
      · have hDneg : nth mspec (idxmax mspec - 1) - 2 * nth mspec (idxmax mspec)
            + nth mspec (idxmax mspec + 1) < 0 :=
          lt_of_le_of_ne (by linarith) hD
        constructor
        · rw [le_div_iff_of_neg hDneg]; linarith
        · rw [div_le_iff_of_neg hDneg]; linarith
      · norm_num
    have hgoal : interpPeak mspec (mask.map (freqAt N sr)) dres
        = freqAt N sr (mask.getD (idxmax mspec) 0)
          + (if nth mspec (idxmax mspec - 1) - 2 * nth mspec (idxmax mspec)
              + nth mspec (idxmax mspec + 1) ≠ 0 then
            1 / 2 * (nth mspec (idxmax mspec - 1) - nth mspec (idxmax mspec + 1))
              / (nth mspec (idxmax mspec - 1) - 2 * nth mspec (idxmax mspec)
                + nth mspec (idxmax mspec + 1)) else 0) * ((sr : ℝ) / N) := by
      simp only [interpPeak]
      rw [if_pos ⟨hj0, hjtop⟩, hres, hmapD _ hjm]
    rw [hgoal]
    have hmul1 := mul_le_mul_of_nonneg_right hp.1 hdelta
    have hmul2 := mul_le_mul_of_nonneg_right hp.2 hdelta
    constructor
    · have := hbjm1.1
      nlinarith [hmul1]
    · have := hbj1.2
      nlinarith [hmul2]
  · have hgoal : interpPeak mspec (mask.map (freqAt N sr)) dres
        = freqAt N sr (mask.getD (idxmax mspec) 0) := by
      simp only [interpPeak]
      rw [if_neg hint, hmapD _ hjm]
    rw [hgoal]
    exact hband _ (hmemD _ hjm)

/-! ### C9 machinery: dominant_frequency stays in the search band -/

theorem dominant_frequency_band_aux (audio : List ℝ) (sr n_fft : ℕ) (low high : ℝ) :
    (maskIdx n_fft sr low high = [] → dominant_frequency audio sr n_fft low high = 0) ∧
    (maskIdx n_fft sr low high ≠ [] →
      low ≤ dominant_frequency audio sr n_fft low high ∧
        dominant_frequency audio sr n_fft low high ≤ high) := by
  constructor
  · intro h
    simp [dominant_frequency, h]
  · intro h
    have hb := interpPeak_bounds
      ((maskIdx n_fft sr low high).map fun k => nth (magSpec audio n_fft) k)
      n_fft sr (maskIdx n_fft sr low high) low high ((sr : ℝ) / n_fft)
      (by simp) h (maskIdx_consecutive n_fft sr low high)
      (fun k hk => (mem_maskIdx n_fft sr low high hk).2)
    simpa [dominant_frequency, if_neg h] using hb

/-- C9: `dominant_frequency` returns 0.0 when no FFT bin frequency lies in the
search band, and otherwise returns a frequency inside [low_hz, high_hz]: the
parabolic-interpolation offset moves an interior peak by at most half a bin,
and edge peaks are returned un-refined at their bin frequency. -/
theorem dominant_frequency_in_band (audio : List ℝ) (sr n_fft : ℕ) (low_hz high_hz : ℝ)
    (hsr : 0 < sr) (hN : 0 < n_fft) :
    (maskIdx n_fft sr low_hz high_hz = [] →
      dominant_frequency audio sr n_fft low_hz high_hz = 0) ∧
    (maskIdx n_fft sr low_hz high_hz ≠ [] →
      low_hz ≤ dominant_frequency audio sr n_fft low_hz high_hz ∧
        dominant_frequency audio sr n_fft low_hz high_hz ≤ high_hz) :=
  dominant_frequency_band_aux audio sr n_fft low_hz high_hz

theorem dominant_frequency_in_band_witness :
    0 < 1 ∧ maskIdx 1 1 0 1 ≠ [] ∧
      (0 : ℝ) ≤ dominant_frequency [1] 1 1 0 1 ∧ dominant_frequency [1] 1 1 0 1 ≤ 1 := by
  have hmask : maskIdx 1 1 0 1 = [0] := by
    norm_num [maskIdx, rfftBins, freqAt, List.range_succ, List.filter]
  have hne : maskIdx 1 1 0 1 ≠ [] := by simp [hmask]
  exact ⟨by norm_num, hne,
    (dominant_frequency_in_band [1] 1 1 0 1 (by norm_num) (by norm_num)).2 hne⟩

/-! ### C2: source-frequency defaulting of full_doppler_analysis -/

theorem dominant_frequency_pos_of_mask_ne (audio : List ℝ) (sr n_fft : ℕ) (low high : ℝ)
    (hlow : 0 < low) (h : maskIdx n_fft sr low high ≠ []) :
    0 < dominant_frequency audio sr n_fft low high :=
  lt_of_lt_of_le hlow ((dominant_frequency_band_aux audio sr n_fft low high).2 h).1

theorem frequency_track_entry (audio : List ℝ) (sr : ℕ) (fl hl low high : ℝ)
    {i : ℕ} (hi : i < ((frequency_track audio sr fl hl low high).2).length) :
    ((frequency_track audio sr fl hl low high).2).getD i 0
      = dominant_frequency
          (pySlice audio (i * (intTrunc (hl * sr)).toNat)
            (i * (intTrunc (hl * sr)).toNat + (intTrunc (fl * sr)).toNat))
          sr (intTrunc (fl * sr)).toNat low high := by
  simp only [frequency_track] at hi ⊢
  rw [List.getD_eq_getElem _ _ hi, List.getElem_map, List.getElem_range]

theorem frequency_track_length_pos (audio : List ℝ) (sr : ℕ) (fl hl low high : ℝ) :
    0 < ((frequency_track audio sr fl hl low high).2).length := by
  simp only [frequency_track, List.length_map, List.length_range]
  omega

/-- C2: when `full_doppler_analysis` is called without a source frequency
(the defaulting step `fullDopplerSourceFreq` applied to its frequency track),
the source frequency used is the track's first nonzero frame frequency, and
the 1000 Hz fallback is used exactly when every frame frequency is zero. -/
theorem full_doppler_source_freq_default (audio : List ℝ) (sr : ℕ) (fl hl : ℝ)
    (hsr : 0 < sr) (hf : 1 ≤ intTrunc (fl * sr)) (hh : 1 ≤ intTrunc (hl * sr)) :
    (∀ i, i < ((frequency_track audio sr fl hl 20 20000).2).length →
      (∀ j, j < i → ((frequency_track audio sr fl hl 20 20000).2).getD j 0 = 0) →
      ((frequency_track audio sr fl hl 20 20000).2).getD i 0 ≠ 0 →
      fullDopplerSourceFreq none ((frequency_track audio sr fl hl 20 20000).2)
        = ((frequency_track audio sr fl hl 20 20000).2).getD i 0) ∧
    ((∀ j, j < ((frequency_track audio sr fl hl 20 20000).2).length →
        ((frequency_track audio sr fl hl 20 20000).2).getD j 0 = 0) →
      fullDopplerSourceFreq none ((frequency_track audio sr fl hl 20 20000).2) = 1000) := by
  have hpos := frequency_track_length_pos audio sr fl hl 20 20000
  constructor
  · intro i hi hprev hne
    by_cases hmask : maskIdx (intTrunc (fl * sr)).toNat sr 20 20000 = []
    · exfalso
      apply hne
      rw [frequency_track_entry audio sr fl hl 20 20000 hi]
      exact (dominant_frequency_band_aux _ sr _ 20 20000).1 hmask
    · have hall : ∀ j, j < ((frequency_track audio sr fl hl 20 20000).2).length →
          0 < ((frequency_track audio sr fl hl 20 20000).2).getD j 0 := by
        intro j hj
        rw [frequency_track_entry audio sr fl hl 20 20000 hj]
        exact dominant_frequency_pos_of_mask_ne _ sr _ 20 20000 (by norm_num) hmask
      have hi0 : i = 0 := by
        by_contra hi0
        have h0 : ((frequency_track audio sr fl hl 20 20000).2).getD 0 0 = 0 :=
          hprev 0 (Nat.pos_of_ne_zero hi0)
        have := hall 0 hpos
        linarith
      subst hi0
      simp only [fullDopplerSourceFreq]
      rw [if_pos ⟨hpos, hall 0 hpos⟩]
  · intro hall
    simp only [fullDopplerSourceFreq]
    rw [if_neg]
    rintro ⟨h1, h2⟩
    rw [hall 0 hpos] at h2
    exact lt_irrefl 0 h2

theorem full_doppler_source_freq_default_witness :
    0 < 1 ∧ (1 : ℤ) ≤ intTrunc ((1 : ℝ) * ((1 : ℕ) : ℝ)) ∧
      ((∀ j, j < ((frequency_track [1] 1 1 1 20 20000).2).length →
          ((frequency_track [1] 1 1 1 20 20000).2).getD j 0 = 0) →
        fullDopplerSourceFreq none ((frequency_track [1] 1 1 1 20 20000).2) = 1000) :=
  ⟨by norm_num, by norm_num [intTrunc],
    (full_doppler_source_freq_default [1] 1 1 1 (by norm_num) (by norm_num [intTrunc])
      (by norm_num [intTrunc])).2⟩

/-! ### Band energies: nonnegativity and normalisation -/

theorem powerSpec_nonneg (audio : List ℝ) (N : ℕ) : ∀ v ∈ powerSpec audio N, 0 ≤ v := by
  intro v hv
  rcases List.mem_map.mp hv with ⟨z, hz, hzeq⟩
  subst hzeq
  positivity

theorem bandRaw_nonneg (audio : List ℝ) (sr N : ℕ) (b : FrequencyBand) :
    0 ≤ bandRaw audio sr N b := by
  unfold bandRaw
  apply List.sum_nonneg
  intro y hy
  rcases List.mem_map.mp hy with ⟨k, hk, hkeq⟩
  subst hkeq
  rcases Nat.lt_or_ge k (powerSpec audio N).length with h1 | h1
  · rw [List.getD_eq_getElem _ _ h1]
    exact powerSpec_nonneg audio N _ (List.getElem_mem h1)
  · rw [List.getD_eq_default _ _ h1]

theorem band_energy_mem_unit (audio : List ℝ) (sr : ℕ)
    (bands : Option (List FrequencyBand)) (n_fft : ℕ) :
    ∀ r ∈ frequency_band_energy audio sr bands n_fft, 0 ≤ r.energy ∧ r.energy ≤ 1 := by
  intro r hr
  simp only [frequency_band_energy] at hr
  rcases List.mem_map.mp hr with ⟨b, hb, hbeq⟩
  subst hbeq
  simp only []
  split_ifs with ht
  · constructor
    · exact div_nonneg (bandRaw_nonneg audio sr n_fft b) (le_of_lt ht)
    · rw [div_le_one ht]
      refine List.single_le_sum (fun y hy => ?_) _ (List.mem_map_of_mem _ hb)
      rcases List.mem_map.mp hy with ⟨b2, hb2, hb2eq⟩
      subst hb2eq
      exact bandRaw_nonneg audio sr n_fft b2
  · norm_num

/-! ### All-zero input gives zero spectrum and zero band energies -/

theorem padTo_zero (audio : List ℝ) (N : ℕ) (h : ∀ x ∈ audio, x = 0) :
    ∀ x ∈ padTo audio N, x = 0 := by
  intro x hx
  rcases List.mem_append.mp hx with h1 | h1
  · exact h x (List.mem_of_mem_take h1)
  · exact List.eq_of_mem_replicate h1

theorem zipWith_mul_zero : ∀ (l1 l2 : List ℝ), (∀ x ∈ l1, x = 0) →
    ∀ x ∈ List.zipWith (· * ·) l1 l2, x = 0 := by
  intro l1
  induction l1 with
  | nil => intro l2 _ x hx; simp at hx
  | cons a t ih =>
    intro l2 h x hx
    cases l2 with
    | nil => simp at hx
    | cons b t2 =>
      simp only [List.zipWith_cons_cons] at hx
      rcases List.mem_cons.mp hx with h1 | h1
      · rw [h1, h a (by simp), zero_mul]
      · exact ih t2 (fun y hy => h y (List.mem_cons_of_mem _ hy)) x h1

theorem windowed_zero (audio : List ℝ) (N : ℕ) (h : ∀ x ∈ audio, x = 0) :
    ∀ x ∈ windowed audio N, x = 0 :=
  zipWith_mul_zero (padTo audio N) (hann N) (padTo_zero audio N h)

theorem rfft_zero (x : List ℝ) (N : ℕ) (h : ∀ v ∈ x, v = 0) :
    ∀ z ∈ rfft x N, z = 0 := by
  intro z hz
  unfold rfft at hz
  rcases List.mem_map.mp hz with ⟨k, hk, hkeq⟩
  subst hkeq
  apply List.sum_eq_zero
  intro y hy
  rcases List.mem_map.mp hy with ⟨t, ht, hteq⟩
  subst hteq
  have hz0 : (padTo x N).getD t 0 = 0 := by
    rcases Nat.lt_or_ge t (padTo x N).length with h1 | h1
    · rw [List.getD_eq_getElem _ _ h1]
      exact padTo_zero x N h _ (List.getElem_mem h1)
    · rw [List.getD_eq_default _ _ h1]
  rw [hz0]
  simp

theorem powerSpec_zero (audio : List ℝ) (N : ℕ) (h : ∀ x ∈ audio, x = 0) :
    ∀ v ∈ powerSpec audio N, v = 0 := by
  intro v hv
  rcases List.mem_map.mp hv with ⟨z, hz, hzeq⟩
  subst hzeq
  rw [rfft_zero (windowed audio N) N (windowed_zero audio N h) z hz]
  simp

theorem bandRaw_zero (audio : List ℝ) (sr N : ℕ) (b : FrequencyBand)
    (h : ∀ x ∈ audio, x = 0) : bandRaw audio sr N b = 0 := by
  unfold bandRaw
  apply List.sum_eq_zero
  intro y hy
  rcases List.mem_map.mp hy with ⟨k, hk, hkeq⟩
  subst hkeq
  rcases Nat.lt_or_ge k (powerSpec audio N).length with h1 | h1
  · rw [List.getD_eq_getElem _ _ h1]
    exact powerSpec_zero audio N h _ (List.getElem_mem h1)
  · rw [List.getD_eq_default _ _ h1]

theorem list_sum_map_div {α : Type} (l : List α) (f : α → ℝ) (T : ℝ) :
    (l.map fun x => f x / T).sum = (l.map f).sum / T := by
  induction l with
  | nil => simp
  | cons x xs ih => simp [ih, add_div]

/-! ### C4: normalisation of band energies -/

/-- C4 counterexample: the buffer [1] is not silent, yet with an empty band
table `frequency_band_energy` returns no bands and the energies sum to 0, not
1.0 as the claim requires for any non-silent input. -/
theorem band_energy_sum_counterexample :
    ([(1 : ℝ)] ≠ ([0] : List ℝ)) ∧
      frequency_band_energy [1] 44100 (some []) 4096 = [] ∧
      ((frequency_band_energy [1] 44100 (some []) 4096).map BandResult.energy).sum = 0 ∧
      ((0 : ℝ) ≠ 1) := by
  refine ⟨by simp, by simp [frequency_band_energy], by simp [frequency_band_energy], by norm_num⟩

/-- C4 (amended): the normalized energies returned by `frequency_band_energy`
sum to 1.0 whenever the total summed in-band energy is positive, and are all 0
when the input buffer is all-zero (in which case the total is 0). -/
theorem band_energy_normalization (audio : List ℝ) (sr : ℕ)
    (bands : Option (List FrequencyBand)) (n_fft : ℕ) :
    (0 < totalBandEnergy audio sr n_fft (bands.getD DEFAULT_BANDS) →
      ((frequency_band_energy audio sr bands n_fft).map BandResult.energy).sum = 1) ∧
    ((∀ x ∈ audio, x = 0) →
      ∀ r ∈ frequency_band_energy audio sr bands n_fft, r.energy = 0) := by
  constructor
  · intro htot
    have hmap : ((frequency_band_energy audio sr bands n_fft).map BandResult.energy)
        = (bands.getD DEFAULT_BANDS).map (fun b => bandRaw audio sr n_fft b
            / totalBandEnergy audio sr n_fft (bands.getD DEFAULT_BANDS)) := by
      simp only [frequency_band_energy, List.map_map]
      refine List.map_congr_left ?_
      intro b hb
      simp only [Function.comp_apply, if_pos htot]
    rw [hmap, list_sum_map_div]
    exact div_self (ne_of_gt htot)
  · intro hzero r hr
    have htot : totalBandEnergy audio sr n_fft (bands.getD DEFAULT_BANDS) = 0 := by
      unfold totalBandEnergy
      apply List.sum_eq_zero
      intro y hy
      rcases List.mem_map.mp hy with ⟨b2, hb2, hb2eq⟩
      subst hb2eq
      exact bandRaw_zero audio sr n_fft b2 hzero
    simp only [frequency_band_energy] at hr
    rcases List.mem_map.mp hr with ⟨b, hb, hbeq⟩
    subst hbeq
    simp [htot]

theorem band_energy_normalization_witness :
    0 < totalBandEnergy [2] 1 1 [⟨"b", 0, 1000, []⟩] ∧
      ((frequency_band_energy [2] 1 (some [⟨"b", 0, 1000, []⟩]) 1).map BandResult.energy).sum
        = 1 ∧
      (∀ r ∈ frequency_band_energy [0] 1 (some [⟨"b", 0, 1000, []⟩]) 1, r.energy = 0) := by
  have hpad : padTo [2] 1 = [2] := by norm_num [padTo]
  have hhann : hann 1 = [1] := by norm_num [hann]
  have hwind : windowed [2] 1 = [2] := by
    rw [windowed, hpad, hhann]
    norm_num
  have hrfft : rfft [2] 1 = [2] := by
    rw [rfft, rfftBins]
    norm_num [List.range_succ, hwind, hpad]
  have hps : powerSpec [2] 1 = [4] := by
    rw [powerSpec, hwind, hrfft]
    norm_num [Complex.abs_ofReal]
  have hmask : bandMaskIdx 1 1 0 1000 = [0] := by
    norm_num [bandMaskIdx, rfftBins, freqAt, List.range_succ, List.filter]
  have htot : totalBandEnergy [2] 1 1 [⟨"b", 0, 1000, []⟩] = 4 := by
    rw [totalBandEnergy]
    norm_num [bandRaw, hmask, hps]
  refine ⟨by rw [htot]; norm_num, ?_, ?_⟩
  · exact (band_energy_normalization [2] 1 (some [⟨"b", 0, 1000, []⟩]) 1).1
      (by rw [Option.getD_some, htot]; norm_num)
  · exact (band_energy_normalization [0] 1 (some [⟨"b", 0, 1000, []⟩]) 1).2 (by simp)

/-! ### Score accumulation of hybrid_classify -/

theorem addScore_nonneg (s : String) (e : ℝ) (he : 0 ≤ e) :
    ∀ acc : List (String × ℝ), (∀ p ∈ acc, 0 ≤ p.2) →
      ∀ p ∈ addScore acc s e, 0 ≤ p.2 := by
  intro acc
  induction acc with
  | nil =>
    intro _ p hp
    simp only [addScore, List.mem_singleton] at hp
    subst hp
    exact he
  | cons q t ih =>
    intro hacc p hp
    obtain ⟨k, v⟩ := q
    simp only [addScore] at hp
    split_ifs at hp with hk
    · rcases List.mem_cons.mp hp with h1 | h1
      · subst h1
        have hv : (0 : ℝ) ≤ v := hacc (k, v) (by simp)
        simpa using add_nonneg hv he
      · exact hacc p (List.mem_cons_of_mem _ h1)
    · rcases List.mem_cons.mp hp with h1 | h1
      · subst h1
        exact hacc (k, v) (by simp)
      · exact ih (fun r hr => hacc r (List.mem_cons_of_mem _ hr)) p h1

theorem scores_foldl_nonneg (e : ℝ) (he : 0 ≤ e) (srcs : List String) :
    ∀ acc : List (String × ℝ), (∀ p ∈ acc, 0 ≤ p.2) →
      ∀ p ∈ srcs.foldl (fun a s => addScore a s e) acc, 0 ≤ p.2 := by
  induction srcs with
  | nil => intro acc hacc; simpa using hacc
  | cons s t ih =>
    intro acc hacc
    simp only [List.foldl_cons]
    exact ih _ (addScore_nonneg s e he acc hacc)

theorem accumulateScores_foldl_nonneg (bes : List BandResult) :
    ∀ acc : List (String × ℝ), (∀ p ∈ acc, 0 ≤ p.2) → (∀ be ∈ bes, 0 ≤ be.energy) →
      ∀ p ∈ bes.foldl
          (fun acc be => be.candidate_sources.foldl (fun a s => addScore a s be.energy) acc) acc,
        0 ≤ p.2 := by
  induction bes with
  | nil => intro acc hacc _; simpa using hacc
  | cons be t ih =>
    intro acc hacc hbes
    simp only [List.foldl_cons]
    exact ih _ (scores_foldl_nonneg be.energy (hbes be (by simp)) be.candidate_sources acc hacc)
      (fun b hb => hbes b (List.mem_cons_of_mem _ hb))

theorem accumulateScores_nonneg (bes : List BandResult) (hbes : ∀ be ∈ bes, 0 ≤ be.energy) :
    ∀ p ∈ accumulateScores bes, 0 ≤ p.2 :=
  accumulateScores_foldl_nonneg bes [] (by simp) hbes

/-! ### Python max over a list -/

theorem init_le_foldl_max : ∀ (xs : List ℝ) (x : ℝ), x ≤ xs.foldl max x := by
  intro xs
  induction xs with
  | nil => intro x; simp
  | cons a t ih =>
    intro x
    simp only [List.foldl_cons]
    exact le_trans (le_max_left x a) (ih (max x a))

theorem mem_le_foldl_max : ∀ (xs : List ℝ) (x : ℝ), ∀ y ∈ xs, y ≤ xs.foldl max x := by
  intro xs
  induction xs with
  | nil => simp
  | cons a t ih =>
    intro x y hy
    simp only [List.foldl_cons]
    rcases List.mem_cons.mp hy with h | h
    · subst h
      exact le_trans (le_max_right x y) (init_le_foldl_max t _)
    · exact ih (max x a) y h

theorem le_pyMax (l : List ℝ) (dflt : ℝ) : ∀ y ∈ l, y ≤ pyMax l dflt := by
  intro y hy
  cases l with
  | nil => simp at hy
  | cons x xs =>
    simp only [pyMax]
    rcases List.mem_cons.mp hy with h | h
    · subst h
      exact init_le_foldl_max xs y
    · exact mem_le_foldl_max xs x y h

/-! ### Rounding and sorting of hybrid_classify -/

theorem round3_unit {x : ℝ} (h0 : 0 ≤ x) (h1 : x ≤ 1) : 0 ≤ round3 x ∧ round3 x ≤ 1 := by
  unfold round3
  have hmono : ∀ a b : ℝ, a ≤ b → round a ≤ round b := by
    intro a b hab
    rw [round_eq, round_eq]
    exact Int.floor_mono (by linarith)
  have hlo := hmono 0 (1000 * x) (by linarith)
  have hhi := hmono (1000 * x) 1000 (by linarith)
  rw [round_zero] at hlo
  have h1000 : round (1000 : ℝ) = 1000 := by
    rw [show ((1000 : ℝ)) = ((1000 : ℤ) : ℝ) by norm_num, round_intCast]
  rw [h1000] at hhi
  constructor
  · apply div_nonneg _ (by norm_num)
    exact_mod_cast hlo
  · rw [div_le_one (by norm_num)]
    exact_mod_cast hhi

theorem sortPairsDesc_mem {p : String × ℝ} {l : List (String × ℝ)}
    (h : p ∈ sortPairsDesc l) : p ∈ l := by
  unfold sortPairsDesc at h
  exact (List.perm_insertionSort _ l).subset h

theorem sortCandsDesc_mem {c : Candidate} {l : List Candidate}
    (h : c ∈ sortCandsDesc l) : c ∈ l := by
  unfold sortCandsDesc at h
  exact (List.perm_insertionSort _ l).subset h

theorem normScores_unit (scores : List (String × ℝ)) (hpos : ∀ p ∈ scores, 0 ≤ p.2) :
    ∀ p ∈ (if 0 < pyMax (scores.map Prod.snd) 1 then
        scores.map (fun p => (p.1, p.2 / pyMax (scores.map Prod.snd) 1)) else scores),
      0 ≤ p.2 ∧ p.2 ≤ 1 := by
  split_ifs with hm
  · intro p hp
    rcases List.mem_map.mp hp with ⟨q, hq, hqeq⟩
    subst hqeq
    constructor
    · exact div_nonneg (hpos q hq) (le_of_lt hm)
    · exact (div_le_one hm).mpr (le_pyMax _ 1 _ (List.mem_map_of_mem _ hq))
  · intro p hp
    push_neg at hm
    have h1 := hpos p hp
    have h2 : p.2 ≤ pyMax (scores.map Prod.snd) 1 := le_pyMax _ 1 _ (List.mem_map_of_mem _ hp)
    exact ⟨h1, by linarith⟩

set_option maxRecDepth 40000 in
/-- C5: when Doppler context indicating motion is supplied to hybrid_classify,
every confidence value in the returned candidates list lies in [0, 1] after the
moving-source ×1.3 boost (capped at 1.0) and the ×0.7 penalty are applied. -/
theorem hybrid_confidences_unit (audio : List ℝ) (sr : ℕ)
    (bands : Option (List FrequencyBand)) (d : DopplerDict) (top_k : ℕ)
    (htk : 0 < top_k) (hmov : d.direction ≠ some "stationary") :
    ∀ c ∈ (hybrid_classify audio sr bands (some d) top_k).candidates,
      0 ≤ c.confidence ∧ c.confidence ≤ 1 := by
  intro c hc
  simp only [hybrid_classify, if_neg hmov] at hc
  set scores := accumulateScores (frequency_band_energy audio sr bands 4096) with hscoresdef
  set M := pyMax (scores.map Prod.snd) 1 with hMdef
  set ns := (if 0 < M then scores.map (fun p => (p.1, p.2 / M)) else scores) with hnsdef
  have hscores : ∀ p ∈ scores, 0 ≤ p.2 := by
    rw [hscoresdef]
    exact accumulateScores_nonneg (frequency_band_energy audio sr bands 4096)
      (fun be hbe => (band_energy_mem_unit audio sr bands 4096 be hbe).1)
  have hnorm : ∀ p ∈ ns, 0 ≤ p.2 ∧ p.2 ≤ 1 := by
    rw [hnsdef, hMdef]
    exact normScores_unit scores hscores
  have hc2 := sortCandsDesc_mem hc
  rcases List.mem_map.mp hc2 with ⟨c0, hc0, hceq⟩
  subst hceq
  have hc0unit : 0 ≤ c0.confidence ∧ c0.confidence ≤ 1 := by
    rcases List.mem_map.mp hc0 with ⟨p, hp, hpeq⟩
    subst hpeq
    have hpunit : 0 ≤ p.2 ∧ p.2 ≤ 1 := by
      split_ifs at hp with hrk
      · simp only [List.mem_singleton] at hp
        subst hp
        norm_num
      · exact hnorm p (sortPairsDesc_mem (List.mem_of_mem_take hp))
    exact round3_unit hpunit.1 hpunit.2
  by_cases hmv : c0.cls ∈ movingSources
  · simp only [if_pos hmv]
    exact ⟨le_min (by norm_num) (mul_nonneg hc0unit.1 (by norm_num)), min_le_left _ _⟩
  · simp only [if_neg hmv]
    constructor
    · exact mul_nonneg hc0unit.1 (by norm_num)
    · nlinarith [hc0unit.1, hc0unit.2]

theorem hybrid_confidences_unit_witness :
    0 < 1 ∧ (some "approaching" ≠ some "stationary") ∧
      ∀ c ∈ (hybrid_classify [] 1 (some [])
          (some ⟨some "approaching", none, none, none⟩) 1).candidates,
        0 ≤ c.confidence ∧ c.confidence ≤ 1 :=
  ⟨by norm_num, by simp,
    hybrid_confidences_unit [] 1 (some []) ⟨some "approaching", none, none, none⟩ 1
      (by norm_num) (by simp)⟩

set_option maxRecDepth 40000 in
/-- C3 (code evaluation): a full-track Doppler summary carries its direction
label under the key "dominant_direction", but line 235 of frequency_filter.py
reads doppler_result.get("direction"), which is absent for a summary; None is
not equal to "stationary", so is_moving comes out true even though the summary
says the source is stationary. -/
theorem hybrid_is_moving_summary_stationary :
    (hybrid_classify [] 16000 (some [])
        (some ⟨none, some "stationary", none, some 0⟩) 3).is_moving = some true := by
  simp only [hybrid_classify]
  rw [if_neg (show (⟨none, some "stationary", none, some 0⟩ : DopplerDict).direction
      ≠ some "stationary" by simp)]

/-! ### C10: the gcc_phat delay is bounded by max_tau -/

theorem intTrunc_nonneg {x : ℝ} (h : 0 ≤ x) : 0 ≤ intTrunc x := by
  rw [intTrunc, if_pos h]
  exact Int.floor_nonneg.mpr h

theorem intTrunc_le {x : ℝ} (h : 0 ≤ x) : (intTrunc x : ℝ) ≤ x := by
  rw [intTrunc, if_pos h]
  exact Int.floor_le x

theorem gccCC_length (sig1 sig2 : List ℝ) :
    (gccCC sig1 sig2).length = nextPow2 (sig1.length + sig2.length - 1) := by
  simp [gccCC, fftshift, irfft]

theorem gccCC_ne_nil (sig1 sig2 : List ℝ) : gccCC sig1 sig2 ≠ [] := by
  intro h
  have := gccCC_length sig1 sig2
  rw [h] at this
  simp only [List.length_nil] at this
  have hp : 0 < nextPow2 (sig1.length + sig2.length - 1) := Nat.pos_pow_of_pos _ (by norm_num)
  omega

theorem gccPick_abs_le (cc : List ℝ) (fs : ℕ) (ms : ℤ)
    (hcc : cc ≠ []) (hfs : 0 < fs) (hms : 0 ≤ ms) :
    |gccPick cc fs ms| ≤ (ms : ℝ) / fs := by
  simp only [gccPick]
  set centre := cc.length / 2 with hcen
  set sStart := (max ((centre : ℤ) - ms) 0).toNat with hS
  set sEnd := (min ((centre : ℤ) + ms + 1) (cc.length : ℤ)).toNat with hE
  set region := (cc.drop sStart).take (sEnd - sStart) with hR
  set peak := idxmax (region.map fun v => |v|) with hP
  have hlen0 : 0 < cc.length := List.length_pos.mpr hcc
  have hcenlt : centre < cc.length := by omega
  have hS0 : (0 : ℤ) ≤ max ((centre : ℤ) - ms) 0 := le_max_right _ _
  have hSZ : (sStart : ℤ) = max ((centre : ℤ) - ms) 0 := by
    rw [hS, Int.toNat_of_nonneg hS0]
  have hSub : (sStart : ℤ) ≤ centre := by
    rw [hSZ]
    apply max_le
    · omega
    · omega
  have hSlb : (centre : ℤ) - ms ≤ sStart := by
    rw [hSZ]
    exact le_max_left _ _
  have hE0 : (0 : ℤ) ≤ min ((centre : ℤ) + ms + 1) (cc.length : ℤ) := by
    apply le_min
    · omega
    · omega
  have hEZ : (sEnd : ℤ) = min ((centre : ℤ) + ms + 1) (cc.length : ℤ) := by
    rw [hE, Int.toNat_of_nonneg hE0]
  have hEub : (sEnd : ℤ) ≤ (centre : ℤ) + ms + 1 := by
    rw [hEZ]
    exact min_le_left _ _
  have hElen : (sEnd : ℤ) ≤ (cc.length : ℤ) := by
    rw [hEZ]
    exact min_le_right _ _
  have hElb : (centre : ℤ) + 1 ≤ sEnd := by
    rw [hEZ]
    apply le_min
    · omega
    · omega
  have hreg : region.length = sEnd - sStart := by
    rw [hR]
    rw [List.length_take, List.length_drop]
    omega
  have hrne : region.map (fun v => |v|) ≠ [] := by
    intro h
    have h2 : (region.map fun v => |v|).length = 0 := by rw [h]; rfl
    rw [List.length_map, hreg] at h2
    omega
  have hpk : peak < region.length := by
    rw [hP]
    have h3 := idxmax_lt_length (region.map fun v => |v|) hrne
    rwa [List.length_map] at h3
  rw [hreg] at hpk
  have h1 : -ms ≤ (peak : ℤ) - ((centre : ℤ) - (sStart : ℤ)) := by omega
  have h2 : (peak : ℤ) - ((centre : ℤ) - (sStart : ℤ)) ≤ ms := by omega
  have hfsR : (0 : ℝ) < fs := by exact_mod_cast hfs
  rw [abs_div, abs_of_pos hfsR]
  rw [div_le_div_iff_of_pos_right hfsR]
  have habsZ : |(peak : ℤ) - ((centre : ℤ) - (sStart : ℤ))| ≤ ms := abs_le.mpr ⟨h1, h2⟩
  calc |(((peak : ℤ) - ((centre : ℤ) - (sStart : ℤ)) : ℤ) : ℝ)|
      = ((|(peak : ℤ) - ((centre : ℤ) - (sStart : ℤ))| : ℤ) : ℝ) := Int.cast_abs.symm
    _ ≤ (ms : ℝ) := by exact_mod_cast habsZ

/-- C10: for nonnegative max_tau and positive sample rate, the delay returned
by gcc_phat satisfies |delay| ≤ max_tau: the search window is clamped to
±int(max_tau·fs) samples around the centre lag, so the peak lag cannot exceed
max_tau in magnitude. -/
theorem gcc_phat_delay_bounded (sig1 sig2 : List ℝ) (fs : ℕ) (max_tau : ℝ)
    (hlen : 2 ≤ sig1.length + sig2.length) (hfs : 0 < fs) (hmt : 0 ≤ max_tau) :
    |(gcc_phat sig1 sig2 fs (some max_tau)).tau| ≤ max_tau := by
  have hfsR : (0 : ℝ) < fs := by exact_mod_cast hfs
  have hprod : (0 : ℝ) ≤ max_tau * fs := mul_nonneg hmt (le_of_lt hfsR)
  have hb := gccPick_abs_le (gccCC sig1 sig2) fs (intTrunc (max_tau * fs))
    (gccCC_ne_nil sig1 sig2) hfs (intTrunc_nonneg hprod)
  have htau : (gcc_phat sig1 sig2 fs (some max_tau)).tau
      = gccPick (gccCC sig1 sig2) fs (intTrunc (max_tau * fs)) := rfl
  rw [htau]
  refine le_trans hb ?_
  rw [div_le_iff₀ hfsR]
  calc ((intTrunc (max_tau * fs) : ℤ) : ℝ) ≤ max_tau * fs := intTrunc_le hprod
    _ = max_tau * fs := rfl

theorem gcc_phat_delay_bounded_witness :
    2 ≤ ([(1 : ℝ), 0] : List ℝ).length + ([(0 : ℝ), 1] : List ℝ).length ∧ 0 < 16000 ∧
      (0 : ℝ) ≤ 1 / 100 ∧
      |(gcc_phat [1, 0] [0, 1] 16000 (some (1 / 100))).tau| ≤ 1 / 100 :=
  ⟨by norm_num, by norm_num, by norm_num,
    gcc_phat_delay_bounded [1, 0] [0, 1] 16000 (1 / 100) (by norm_num) (by norm_num)
      (by norm_num)⟩

/-! ### C1: concrete evaluation of gcc_phat on a delayed impulse -/

theorem omegaF_four : omegaF 4 = -Complex.I := by
  have h : -(2 * (Real.pi : ℂ) * Complex.I) / ((4 : ℕ) : ℂ)
      = ((-(Real.pi / 2) : ℝ) : ℂ) * Complex.I := by
    push_cast
    ring
  rw [omegaF, h, Complex.exp_mul_I, ← Complex.ofReal_cos, ← Complex.ofReal_sin,
    Real.cos_neg, Real.sin_neg, Real.cos_pi_div_two, Real.sin_pi_div_two]
  push_cast
  ring

theorem omegaI_four : omegaI 4 = Complex.I := by
  have h : 2 * (Real.pi : ℂ) * Complex.I / ((4 : ℕ) : ℂ)
      = (((Real.pi / 2) : ℝ) : ℂ) * Complex.I := by
    push_cast
    ring
  rw [omegaI, h, Complex.exp_mul_I, ← Complex.ofReal_cos, ← Complex.ofReal_sin,
    Real.cos_pi_div_two, Real.sin_pi_div_two]
  push_cast
  ring

theorem rfft_sig1 : rfft [1, 0] 4 = [1, 1, 1] := by
  norm_num [rfft, rfftBins, padTo, List.range_succ]

theorem rfft_sig2 : rfft [0, 1] 4 = [1, -Complex.I, -1] := by
  norm_num [rfft, rfftBins, padTo, List.range_succ, omegaF_four, pow_succ, Complex.I_sq]

theorem clog_two_three : Nat.clog 2 3 = 2 := by
  rw [Nat.clog_of_two_le (by norm_num) (by norm_num)]
  norm_num
  rw [Nat.clog_of_two_le (by norm_num) (by norm_num)]
  norm_num

theorem nextPow2_three : nextPow2 3 = 4 := by
  rw [nextPow2, clog_two_three]
  norm_num

theorem irfft_eval : irfft [1, Complex.I, -1] 4 = [0, 0, 0, 1] := by
  have h2 : Complex.I ^ 2 = -1 := Complex.I_sq
  have h3 : Complex.I ^ 3 = -Complex.I := by
    rw [pow_succ, h2]
    ring
  have h4 : Complex.I ^ 4 = 1 := by
    rw [pow_succ, h3]
    simp [Complex.I_mul_I]
  have h6 : Complex.I ^ 6 = -1 := by
    rw [show (6 : ℕ) = 4 + 2 by norm_num, pow_add, h4, h2]
    ring
  have h9 : Complex.I ^ 9 = Complex.I := by
    rw [show (9 : ℕ) = 4 + 4 + 1 by norm_num, pow_add, pow_add, h4]
    simp
  rw [irfft]
  norm_num [List.range_succ, hermExtend, omegaI_four, Complex.conj_I, h2, h3, h4, h6, h9,
    Complex.I_mul_I, Complex.ext_iff]

theorem gccCC_eval : gccCC [1, 0] [0, 1] = [0, 1, 0, 0] := by
  have hN : nextPow2 ([(1 : ℝ), 0].length + [(0 : ℝ), 1].length - 1) = 4 := by
    norm_num [nextPow2_three]
  simp only [gccCC, hN, rfft_sig1, rfft_sig2]
  have hzip : List.zipWith (fun a b => a * (starRingEnd ℂ) b)
      [1, 1, 1] [1, -Complex.I, -1] = [1, Complex.I, -1] := by
    simp [Complex.conj_I]
  rw [hzip]
  have hmap : ([1, Complex.I, -1] : List ℂ).map (fun z =>
      z / (if Complex.abs z < 1e-10 then ((1e-10 : ℝ) : ℂ) else ((Complex.abs z : ℝ) : ℂ)))
      = [1, Complex.I, -1] := by
    norm_num [Complex.abs_I]
  rw [hmap, irfft_eval]
  norm_num [fftshift, List.range_succ]

theorem gccPick_eval : gccPick [0, 1, 0, 0] 1 1 = -1 := by
  norm_num [gccPick, idxmax, List.all_cons, intTrunc]

/-- C1 (code evaluation): for sig1 = [1,0] and sig2 = [0,1] — sig2 equal to
sig1 delayed by d = 1 sample — with fs = 1 and max_tau = 1 (so |d| ≤
max_tau·fs), gcc_phat returns τ = −1.0 s, the negative of the true shift,
while the claim requires a value within one sample (1 s) of d/fs = +1.0 s:
|−1 − 1| = 2 > 1.  The cross-power spectrum R = S1·conj(S2) peaks at lag −d
for sig2 delayed by d, so the code's sign is opposite to its own demo
expectation (doa.py line 164). -/
theorem gcc_phat_sign_flip :
    (gcc_phat [1, 0] [0, 1] 1 (some 1)).tau = -1 ∧
      1 < |(gcc_phat [1, 0] [0, 1] 1 (some 1)).tau - 1| := by
  have htau : (gcc_phat [1, 0] [0, 1] 1 (some 1)).tau
      = gccPick (gccCC [1, 0] [0, 1]) 1 (intTrunc ((1 : ℝ) * ((1 : ℕ) : ℝ))) := rfl
  have hms : intTrunc ((1 : ℝ) * ((1 : ℕ) : ℝ)) = 1 := by norm_num [intTrunc]
  have h : (gcc_phat [1, 0] [0, 1] 1 (some 1)).tau = -1 := by
    rw [htau, gccCC_eval, hms, gccPick_eval]
  exact ⟨h, by rw [h]; norm_num⟩
